import Mathlib

/-!
Verification of the audio-preview component of onedrive-vercel-index
(`src/components/previews/AudioPreview.tsx` and its variants).

The TypeScript source is shallowly embedded: pure helpers (`parseLRC`,
`isAudioFile`, `extractColorFromImage`) become Lean functions; the React
effects (pagination driver, playlist extraction, `onended` handler, lyric
fetching) become explicit state-passing functions.  JavaScript numbers that
only ever hold small exact values (lyric timestamps) are modelled as `ℚ`;
JavaScript array indices that may be `-1` are modelled as `Int`.
-/

namespace AudioPreview

/-- A parsed lyric line, as produced by `parseLRC` in the source:
`{ time: number; text: string }`.  `time` is seconds; the source computes
`minutes * 60 + seconds + milliseconds / 1000`, which we carry exactly in `ℚ`. -/
structure LyricLine where
  time : ℚ
  text : String
deriving DecidableEq, Repr

instance : Inhabited LyricLine := ⟨⟨0, ""⟩⟩

/-- Characters treated as whitespace by JavaScript `String.prototype.trim`:
the WhiteSpace and LineTerminator productions (space, tab, LF, CR, VT, FF,
NBSP, BOM, the Unicode space separators, LS, PS). -/
def isJsSpace (c : Char) : Bool :=
  c == ' ' || c == '\t' || c == '\n' || c == '\r' ||
  c.toNat == 0x0b || c.toNat == 0x0c || c.toNat == 0xa0 ||
  c.toNat == 0x1680 || (0x2000 ≤ c.toNat && c.toNat ≤ 0x200a) ||
  c.toNat == 0x2028 || c.toNat == 0x2029 || c.toNat == 0x202f ||
  c.toNat == 0x205f || c.toNat == 0x3000 || c.toNat == 0xfeff

/-- JavaScript `String.prototype.trim` on a character list: strip leading and
trailing JS whitespace. -/
def jsTrim (cs : List Char) : List Char :=
  ((cs.dropWhile isJsSpace).reverse.dropWhile isJsSpace).reverse

/-- Characters that JavaScript's regexp `.` does not match (LineTerminator):
LF, CR, LS, PS. -/
def isLineTerm (c : Char) : Bool :=
  c == '\n' || c == '\r' || c.toNat == 0x2028 || c.toNat == 0x2029

/-- Numeric value of a decimal digit character. -/
def digitVal (c : Char) : Nat := c.toNat - 48

/-- Value of the two-digit minute/second fields (`parseInt(match[i])`). -/
def twoDigitVal (d1 d2 : Char) : Nat := 10 * digitVal d1 + digitVal d2

/-- Value of `parseInt(match[3].padEnd(3, '0'))` in the source: the 2- or
3-digit fractional field is right-padded with `'0'` to three digits and read
as a decimal number of milliseconds. -/
def msVal (ds : List Char) : Nat :=
  (ds ++ List.replicate (3 - ds.length) '0').foldl (fun n c => 10 * n + digitVal c) 0

/-- Result of matching the regexp `\[(\d{2}):(\d{2})\.?(\d{2,3})?\](.*)` at
one position: the two-digit minute and second groups, the optional fractional
digit group, and the characters following the closing bracket. -/
structure LrcMatch where
  mins : Nat
  secs : Nat
  frac : Option (List Char)
  rest : List Char
deriving DecidableEq, Repr

/-- Attempt `\d{3}\]` at the head of the list (the greedy three-digit case of
`(\d{2,3})?\]`). -/
def tryFrac3 : List Char → Option (Option (List Char) × List Char)
  | a :: b :: c :: ']' :: r =>
    if a.isDigit && b.isDigit && c.isDigit then some (some [a, b, c], r) else none
  | _ => none

/-- Attempt `\d{2}\]` at the head of the list (the two-digit backtracking case
of `(\d{2,3})?\]`). -/
def tryFrac2 : List Char → Option (Option (List Char) × List Char)
  | a :: b :: ']' :: r =>
    if a.isDigit && b.isDigit then some (some [a, b], r) else none
  | _ => none

/-- Attempt a bare `\]` at the head of the list (the `(\d{2,3})?` group left
empty). -/
def tryFrac0 : List Char → Option (Option (List Char) × List Char)
  | ']' :: r => some (none, r)
  | _ => none

/-- Backtracking order of `(\d{2,3})?\]`: the greedy quantifier tries three
digits, then two, then skips the group. -/
def tryDigitsBracket (cs : List Char) : Option (Option (List Char) × List Char) :=
  match tryFrac3 cs with
  | some r => some r
  | none =>
    match tryFrac2 cs with
    | some r => some r
    | none => tryFrac0 cs

/-- Match `\.?(\d{2,3})?\]` at the head of the list.  When the optional dot is
present, the digit group and bracket must follow it: if they fail there, the
dotless alternative also fails (the next character is the dot itself, which is
neither a digit nor `]`), so no further backtracking is possible. -/
def tryFracBracket : List Char → Option (Option (List Char) × List Char)
  | '.' :: rest => tryDigitsBracket rest
  | cs => tryDigitsBracket cs

/-- Match the full regexp `\[(\d{2}):(\d{2})\.?(\d{2,3})?\](.*)` anchored at
the head of the list.  The trailing `(.*)` group stops at the first
LineTerminator character, as JavaScript's `.` does. -/
def matchAt : List Char → Option LrcMatch
  | '[' :: d1 :: d2 :: ':' :: d3 :: d4 :: rest =>
    if d1.isDigit && d2.isDigit && d3.isDigit && d4.isDigit then
      match tryFracBracket rest with
      | some (frac, after) =>
        some ⟨twoDigitVal d1 d2, twoDigitVal d3 d4, frac,
              after.takeWhile (fun c => !isLineTerm c)⟩
      | none => none
    else none
  | _ => none

/-- Leftmost-match semantics of `line.match(re)`: try the pattern at each
successive start position. -/
def findMatch : List Char → Option LrcMatch
  | [] => none
  | c :: cs =>
    match matchAt (c :: cs) with
    | some m => some m
    | none => findMatch cs

/-- Body of the `lines.forEach` loop of `parseLRC`: parse one line.  A line
contributes a `LyricLine` exactly when the regexp matches and the trailing
text is non-empty after trimming (`if (text) lyrics.push(...)`). -/
def parseLineChars (cs : List Char) : Option LyricLine :=
  match findMatch cs with
  | none => none
  | some m =>
    let milliseconds : Nat :=
      match m.frac with
      | some ds => msVal ds
      | none => 0
    let time : ℚ := (m.mins : ℚ) * 60 + (m.secs : ℚ) + (milliseconds : ℚ) / 1000
    let text := jsTrim m.rest
    if text.isEmpty then none else some ⟨time, String.mk text⟩

/-- JavaScript `lrcText.split('\n')` on a character list: split at every
newline, keeping empty segments (`split` of the empty string is `[""]`). -/
def splitNl : List Char → List (List Char)
  | [] => [[]]
  | c :: cs =>
    if c = '\n' then [] :: splitNl cs
    else
      match splitNl cs with
      | l :: ls => (c :: l) :: ls
      | [] => [[c]]

/-- Stable insertion of a lyric line into a list: the new element goes before
the first element whose time is greater than or equal to its own. -/
def insertLyric (x : LyricLine) : List LyricLine → List LyricLine
  | [] => [x]
  | y :: ys => if x.time ≤ y.time then x :: y :: ys else y :: insertLyric x ys

/-- Model of `lyrics.sort((a, b) => a.time - b.time)`.  ECMAScript requires
`Array.prototype.sort` to be stable, and a stable sort by a total preorder is
extensionally unique, so stable insertion sort is a faithful model. -/
def sortLyrics : List LyricLine → List LyricLine
  | [] => []
  | x :: xs => insertLyric x (sortLyrics xs)

/-- The lyric lines of a text in original file order, before sorting: the
contents of the `lyrics` array at the end of the `forEach` loop in
`parseLRC`. -/
def rawLyricsOf (lrcText : String) : List LyricLine :=
  (splitNl lrcText.data).filterMap parseLineChars

/-- The source's `parseLRC`: split into lines, parse each, collect the
successes in order, and stable-sort ascending by time. -/
def parseLRC (lrcText : String) : List LyricLine :=
  sortLyrics (rawLyricsOf lrcText)

/-- The `file` facet of a OneDrive directory entry: present exactly when the
entry is a file, carrying its MIME type. -/
structure FileFacet where
  mimeType : String
deriving DecidableEq, Repr

/-- A directory entry from a folder-listing page (`folder.value` element). -/
structure DirEntry where
  name : String
  file : Option FileFacet
deriving DecidableEq, Repr

instance : Inhabited DirEntry := ⟨⟨"", none⟩⟩

/-- A playlist entry as built by the source: `{ name: f.name, file: f }`. -/
structure PlaylistItem where
  name : String
  file : DirEntry
deriving DecidableEq, Repr

instance : Inhabited PlaylistItem := ⟨⟨"", ⟨"", none⟩⟩⟩

/-- Character-list prefix test, modelling JavaScript
`String.prototype.startsWith` (code-unit prefix). -/
def strStartsWith (pat : List Char) (s : List Char) : Bool :=
  match pat, s with
  | [], _ => true
  | _ :: _, [] => false
  | p :: ps, c :: cs => p == c && strStartsWith ps cs

/-- The source's `isAudioFile`: `mimeType.startsWith('audio/')`. -/
def isAudioFile (mimeType : String) : Bool :=
  strStartsWith "audio/".data mimeType.data

/-- The filter predicate of the playlist-extraction effect:
`f.file && isAudioFile(f.file.mimeType)`. -/
def audioFilePred (f : DirEntry) : Bool :=
  match f.file with
  | some ff => isAudioFile ff.mimeType
  | none => false

/-- The playlist built by the extraction effect from a flat list of directory
entries: `allFiles.filter(...).map(f => ({ name: f.name, file: f }))`. -/
def playlistOf (allFiles : List DirEntry) : List PlaylistItem :=
  (allFiles.filter audioFilePred).map (fun f => { name := f.name, file := f })

/-- One folder-listing page response: an optional `folder.value` entry array
and an optional `next` continuation token. -/
structure Page where
  folder : Option (List DirEntry)
  next : Option String
deriving DecidableEq, Repr

/-- JavaScript truthiness of the `next` field: a string is truthy exactly when
it is non-empty; an absent field is falsy. -/
def truthyNext : Option String → Bool
  | none => false
  | some s => s != ""

/-- The pagination test of the loading effect: `lastResponse?.next`, where
`lastResponse = responses[responses.length - 1]` (falsy on an empty response
list). -/
def lastHasNext (responses : List Page) : Bool :=
  match responses.getLast? with
  | none => false
  | some r => truthyNext r.next

/-- The `folder.value || []` extraction applied to one response page. -/
def pageValue (r : Page) : List DirEntry := r.folder.getD []

/-- The SWR-infinite paging driver of the loading effect: starting from `k`
fetched pages, while the last fetched page has a truthy `next` token the
effect calls `setSize(size + 1)`; once it does not, the playlist becomes
materializable and the final page count is returned.  `fuel` bounds the loop;
`none` means the driver never reaches a page without a token. -/
def loadLoop (pages : List Page) : Nat → Nat → Option Nat
  | 0, _ => none
  | Nat.succ fuel, k =>
    if lastHasNext (pages.take k) then loadLoop pages fuel (k + 1) else some k

/-- Number of pages fetched when `setIsLoadingPlaylist(false)` fires: the
driver starts at one page (SWR-infinite initial size) and can usefully grow
only up to the number of pages the server has. -/
def paginationFinalSize (pages : List Page) : Option Nat :=
  loadLoop pages (pages.length + 1) 1

/-- The playlist materialized by the extraction effect once loading finishes:
`[].concat(...responses.map(r => r.folder?.value || []))` filtered to audio
files.  `none` when the driver never finds a page without a `next` token. -/
def buildPlaylist (pages : List Page) : Option (List PlaylistItem) :=
  match paginationFinalSize pages with
  | some k => some (playlistOf (((pages.take k).map pageValue).flatten))
  | none => none

/-- The player-state enumeration of the source. -/
inductive PlayerState where
  | Loading
  | Ready
  | Playing
  | Paused
deriving DecidableEq, Repr

/-- The component state touched by the `onended` handler and
`handlePlaylistItemClick`: current file, player status, broken-thumbnail
flag. -/
structure PlayerModel where
  currentFile : DirEntry
  playerStatus : PlayerState
  brokenThumbnail : Bool
deriving DecidableEq, Repr

/-- The source's `handlePlaylistItemClick(fileItem)`: set the current file,
clear the broken-thumbnail flag, reset the state to `Loading`. -/
def handlePlaylistItemClick (fileItem : DirEntry) (s : PlayerModel) : PlayerModel :=
  { s with currentFile := fileItem, brokenThumbnail := false,
           playerStatus := PlayerState.Loading }

/-- JavaScript `playlist.findIndex(item => item.name === name)`: first index
whose name matches, `-1` when absent. -/
def jsFindIndexByName (playlist : List PlaylistItem) (nm : String) : Int :=
  match playlist.findIdx? (fun item => item.name == nm) with
  | some i => (i : Int)
  | none => -1

/-- The `onended` handler: look up the current file in the playlist by name;
if a following entry exists (`currentIndex < playlist.length - 1`, evaluated
over JavaScript numbers, hence over `Int`), select it via
`handlePlaylistItemClick`; otherwise set the state to `Paused`. -/
def onEnded (playlist : List PlaylistItem) (s : PlayerModel) : PlayerModel :=
  let currentIndex := jsFindIndexByName playlist s.currentFile.name
  if currentIndex < (playlist.length : Int) - 1 then
    handlePlaylistItemClick
      (playlist.getD (currentIndex + 1).toNat default).file s
  else
    { s with playerStatus := PlayerState.Paused }

/-- One RGBA pixel of the `ImageData` buffer sampled by
`extractColorFromImage`.  The flat `data` array of an `ImageData` always has
length a multiple of four, so it is modelled as a pixel list. -/
structure RGBA where
  r : Nat
  g : Nat
  b : Nat
  a : Nat
deriving DecidableEq, Repr

/-- The source's `extractColorFromImage`, with the canvas interaction
abstracted to its observable input: `none` when `canvas.getContext('2d')`
returns no drawing context (the fallback branch), `some data` for the pixel
buffer returned by `getImageData`.  The channel sums are accumulated exactly
as in the source's stride-4 loop, and each average is `Math.floor`ed; for the
inputs considered here the double-precision quotient is exact, so `Nat`
floor division is the faithful model. -/
def extractColorFromImage (ctx : Option (List RGBA)) : String :=
  match ctx with
  | none => "rgb(239, 68, 68)"
  | some data =>
    let sums := data.foldl
      (fun (acc : Nat × Nat × Nat) px => (acc.1 + px.r, acc.2.1 + px.g, acc.2.2 + px.b))
      (0, 0, 0)
    let pixelCount := data.length
    let r := sums.1 / pixelCount
    let g := sums.2.1 / pixelCount
    let b := sums.2.2 / pixelCount
    "rgb(" ++ toString r ++ ", " ++ toString g ++ ", " ++ toString b ++ ")"

/-- Number of pixels of the sampled centered sub-region for an `N×N` image:
`getImageData(N/4, N/4, N/2, N/2)` truncates its arguments to integers, so
the region is `⌊N/2⌋ × ⌊N/2⌋`. -/
def sampledPixelCount (n : Nat) : Nat := (n / 2) * (n / 2)

/-- The pixel buffer `getImageData` yields for a uniformly red `(255,0,0)`
opaque `N×N` image: every sampled pixel is `(255, 0, 0, 255)`. -/
def uniformRedSample (n : Nat) : List RGBA :=
  List.replicate (sampledPixelCount n) ⟨255, 0, 0, 255⟩

/-- The early-break linear scan of the `updateLyric` callback in
`AudioPreview.tsx`: walk the lyric list, remembering the index of each line
whose time is at most the playback position, and stop at the first line whose
time exceeds it.  `i` is the index of the head of the remaining list, `idx`
the last remembered index (initially `-1`). -/
def scanGo (t : ℚ) : List LyricLine → Nat → Int → Int
  | [], _, idx => idx
  | l :: ls, i, idx => if l.time ≤ t then scanGo t ls (i + 1) (i : Int) else idx

/-- The active-lyric computation of the first `updateLyric` variant: the
early-break scan started at index `0` with `index = -1`. -/
def updateLyricScan (t : ℚ) (lyrics : List LyricLine) : Int :=
  scanGo t lyrics 0 (-1)

/-- `Array.prototype.findLastIndex` specialized to the lyric predicate: the
index of the last element satisfying `p`, or `-1`.  `i` indexes the head of
the remaining list, `acc` holds the best index found so far. -/
def findLastGo (p : LyricLine → Bool) : List LyricLine → Nat → Int → Int
  | [], _, acc => acc
  | l :: ls, i, acc => findLastGo p ls (i + 1) (if p l then (i : Int) else acc)

/-- The active-lyric computation of the second `updateLyric` variant:
`lyrics.findLastIndex(l => time >= l.time)`. -/
def updateLyricFindLast (t : ℚ) (lyrics : List LyricLine) : Int :=
  findLastGo (fun l => decide (l.time ≤ t)) lyrics 0 (-1)

/-- Modelled from the spec (section 4.5), for comparison with the two source
variants: "compute the index of the last LyricLine whose `time` is ≤ current
position (or -1 if none)". -/
def specActiveIndex (t : ℚ) (lyrics : List LyricLine) : Int :=
  match (lyrics.enum.filter (fun p => decide (p.2.time ≤ t))).getLast? with
  | some p => (p.1 : Int)
  | none => -1

/-- The lyric-related component state committed by `fetchLyrics` and the
track-switch effect.  `displayedFor` is a ghost provenance field recording
which track's fetch produced the currently displayed lyrics (the code stores
only the lyrics themselves); it lets staleness be stated. -/
structure LyricsUiState where
  currentName : String
  lyrics : List LyricLine
  displayedFor : Option String
  hasLyrics : Option Bool
deriving DecidableEq, Repr

/-- Interleaving events of the lyric-fetch lifecycle: the user selects a
track (the effect keyed on `currentFile.name` runs `fetchLyrics`, which
clears the lyric state and starts a request), or a previously started request
for `forTrack` resolves successfully with parsed lyrics. -/
inductive LyricEvent where
  | selectTrack (name : String)
  | fetchResolves (forTrack : String) (parsed : List LyricLine)
deriving DecidableEq, Repr

/-- One step of the lyric-fetch state machine, read off the source: on track
selection, `fetchLyrics` runs `setHasLyrics(null); setLyrics([])`; on a
successful response, it runs `setLyrics(parsedLyrics);
setHasLyrics(parsedLyrics.length > 0)` unconditionally — the completion
handler contains no check that the response belongs to the currently selected
track. -/
def lyricStep (s : LyricsUiState) : LyricEvent → LyricsUiState
  | LyricEvent.selectTrack n =>
    { currentName := n, lyrics := [], displayedFor := none, hasLyrics := none }
  | LyricEvent.fetchResolves n parsed =>
    { s with lyrics := parsed, displayedFor := some n,
             hasLyrics := some (decide (0 < parsed.length)) }

/-! Helper lemmas about the stable sort. -/

theorem mem_insertLyric {x z : LyricLine} {l : List LyricLine} :
    z ∈ insertLyric x l ↔ z = x ∨ z ∈ l := by
  induction l with
  | nil => simp [insertLyric]
  | cons y ys ih =>
    simp only [insertLyric]
    split
    · simp [List.mem_cons]
    · simp only [List.mem_cons, ih]
      tauto

theorem insertLyric_pairwise {x : LyricLine} {l : List LyricLine}
    (h : l.Pairwise (fun a b => a.time ≤ b.time)) :
    (insertLyric x l).Pairwise (fun a b => a.time ≤ b.time) := by
  induction l with
  | nil => simp [insertLyric]
  | cons y ys ih =>
    rw [List.pairwise_cons] at h
    obtain ⟨hy, hys⟩ := h
    simp only [insertLyric]
    split_ifs with hxy
    · refine List.Pairwise.cons ?_ (List.Pairwise.cons hy hys)
      intro z hz
      rcases List.mem_cons.mp hz with rfl | hz
      · exact hxy
      · exact le_trans hxy (hy z hz)
    · refine List.Pairwise.cons ?_ (ih hys)
      intro z hz
      rcases mem_insertLyric.mp hz with rfl | hz
      · exact le_of_lt (lt_of_not_le hxy)
      · exact hy z hz

theorem sortLyrics_pairwise (l : List LyricLine) :
    (sortLyrics l).Pairwise (fun a b => a.time ≤ b.time) := by
  induction l with
  | nil => exact List.Pairwise.nil
  | cons x xs ih => exact insertLyric_pairwise ih

theorem filter_time_insertLyric (t : ℚ) (x : LyricLine) (l : List LyricLine) :
    (insertLyric x l).filter (fun y => decide (y.time = t)) =
      if x.time = t then x :: l.filter (fun y => decide (y.time = t))
      else l.filter (fun y => decide (y.time = t)) := by
  induction l with
  | nil =>
    by_cases h : x.time = t <;> simp [insertLyric, h]
  | cons y ys ih =>
    by_cases hxy : x.time ≤ y.time
    · rw [show insertLyric x (y :: ys) = x :: y :: ys by simp [insertLyric, hxy]]
      by_cases hxt : x.time = t <;> simp [List.filter_cons, hxt]
    · rw [show insertLyric x (y :: ys) = y :: insertLyric x ys by
        simp [insertLyric, hxy]]
      by_cases hxt : x.time = t
      · have hyt : ¬ y.time = t := fun hy => hxy (le_of_eq (hxt.trans hy.symm))
        simp [List.filter_cons, ih, hxt, hyt]
      · simp [List.filter_cons, ih, hxt]

theorem filter_time_sortLyrics (t : ℚ) (l : List LyricLine) :
    (sortLyrics l).filter (fun y => decide (y.time = t)) =
      l.filter (fun y => decide (y.time = t)) := by
  induction l with
  | nil => rfl
  | cons x xs ih =>
    simp only [sortLyrics, filter_time_insertLyric, List.filter_cons,
      decide_eq_true_eq]
    split_ifs with h <;> simp [ih]

/-! Helper lemmas about line splitting. -/

theorem splitNl_ne_nil (cs : List Char) : splitNl cs ≠ [] := by
  induction cs with
  | nil => simp [splitNl]
  | cons c cs ih =>
    simp only [splitNl]
    split_ifs
    · simp
    · cases h : splitNl cs with
      | nil => exact absurd h ih
      | cons l ls => simp [h]

theorem splitNl_append (a b : List Char) :
    splitNl (a ++ '\n' :: b) = splitNl a ++ splitNl b := by
  induction a with
  | nil => simp [splitNl]
  | cons c a ih =>
    rw [List.cons_append]
    simp only [splitNl]
    split_ifs with hc
    · rw [ih]; rfl
    · rw [ih]
      cases h : splitNl a with
      | nil => exact absurd h (splitNl_ne_nil a)
      | cons l ls => simp [h]

theorem splitNl_of_no_newline {cs : List Char} (h : '\n' ∉ cs) :
    splitNl cs = [cs] := by
  induction cs with
  | nil => rfl
  | cons c cs ih =>
    simp only [List.mem_cons, not_or] at h
    simp only [splitNl]
    rw [if_neg (fun hc => h.1 hc.symm), ih h.2]

/-- Claim C2: for the input line `[01:02.500]Hello`, `parseLRC` yields a single
`LyricLine` with time `62.5` and text `"Hello"`; for `[00:05]Hi`, a single
`LyricLine` with time `5.0` and text `"Hi"` — time is computed as
`minutes*60 + seconds + fractional/1000`, a two-digit fractional field being
right-padded with a zero. -/
theorem parseLRC_wellFormed_examples :
    parseLRC "[01:02.500]Hello" = [{ time := 62.5, text := "Hello" }] ∧
    parseLRC "[00:05]Hi" = [{ time := 5, text := "Hi" }] := by
  constructor
  · with_unfolding_all decide
  · with_unfolding_all decide

/-- Claim C3: for every input text the sequence returned by `parseLRC` is sorted
ascending by time, and for each timestamp the sub-sequence of lines carrying
it is exactly the sub-sequence in original file order (stable sort); in
particular `[00:10]B`, `[00:05]A`, `[00:10]C` parse to A@5, B@10, C@10 with
B before C. -/
theorem parseLRC_sorted_stable :
    (∀ text : String,
        (parseLRC text).Pairwise (fun a b => a.time ≤ b.time) ∧
        ∀ t : ℚ, (parseLRC text).filter (fun l => decide (l.time = t)) =
          (rawLyricsOf text).filter (fun l => decide (l.time = t))) ∧
    parseLRC "[00:10]B\n[00:05]A\n[00:10]C" =
      [{ time := 5, text := "A" }, { time := 10, text := "B" },
       { time := 10, text := "C" }] := by
  refine ⟨fun text => ⟨sortLyrics_pairwise _, fun t => filter_time_sortLyrics t _⟩, ?_⟩
  with_unfolding_all decide

/-- Claim C8: `parseLRC` is a total function (the embedding is structurally
recursive, so it terminates and cannot raise), and a line that contributes no
`LyricLine` — because the regexp does not match, or because the trailing text
trims to empty — does not disturb the parse of the remaining lines: removing
such a line leaves the result unchanged. -/
theorem parseLRC_drops_malformed (s t : String)
    (hnl : '\n' ∉ s.data) (hm : parseLineChars s.data = none) :
    parseLRC (s ++ "\n" ++ t) = parseLRC t ∧
    (∀ cs : List Char, findMatch cs = none → parseLineChars cs = none) ∧
    (∀ cs : List Char, ∀ m : LrcMatch, findMatch cs = some m → jsTrim m.rest = [] →
        parseLineChars cs = none) := by
  refine ⟨?_, ?_, ?_⟩
  · unfold parseLRC rawLyricsOf
    rw [String.data_append, String.data_append]
    have hnlchar : ("\n" : String).data = ['\n'] := rfl
    rw [hnlchar, List.append_assoc, List.singleton_append, splitNl_append,
      splitNl_of_no_newline hnl]
    simp [List.filterMap_cons, hm]
  · intro cs h
    simp [parseLineChars, h]
  · intro cs m hmatch htrim
    simp [parseLineChars, hmatch, htrim]

/-- Witness for claim C8: the line `[00:01]   ` (whitespace only after the timestamp)
contributes nothing, and prepending it to a well-formed file leaves the
parse unchanged. -/
theorem parseLRC_drops_malformed_witness :
    ('\n' ∉ ("[00:01]   " : String).data) ∧
    parseLineChars ("[00:01]   " : String).data = none ∧
    parseLRC ("[00:01]   " ++ "\n" ++ "[00:05]Hi") = parseLRC "[00:05]Hi" ∧
    parseLRC "[00:01]   " = [] :=
  ⟨by decide, by decide,
   (parseLRC_drops_malformed "[00:01]   " "[00:05]Hi" (by decide) (by decide)).1,
   by with_unfolding_all decide⟩

/-! Pagination driver lemmas. -/

theorem loadLoop_sound (pages : List Page) :
    ∀ fuel k0 k, loadLoop pages fuel k0 = some k →
      lastHasNext (pages.take k) = false ∧ k0 ≤ k ∧
      ∀ j, k0 ≤ j → j < k → lastHasNext (pages.take j) = true := by
  intro fuel
  induction fuel with
  | zero => intro k0 k h; simp [loadLoop] at h
  | succ fuel ih =>
    intro k0 k h
    simp only [loadLoop] at h
    cases hc : lastHasNext (pages.take k0) with
    | true =>
      rw [hc, if_pos rfl] at h
      obtain ⟨h1, h2, h3⟩ := ih (k0 + 1) k h
      refine ⟨h1, by omega, fun j hj hjk => ?_⟩
      rcases Nat.eq_or_lt_of_le hj with rfl | hlt
      · exact hc
      · exact h3 j hlt hjk
    | false =>
      rw [hc] at h
      simp only [Bool.false_eq_true, if_false] at h
      obtain rfl : k0 = k := Option.some.inj h
      exact ⟨hc, Nat.le_refl _, fun j hj hjk => absurd (Nat.lt_of_le_of_lt hj hjk) (Nat.lt_irrefl _)⟩

/-- Claim C1: whenever the pagination driver materializes the playlist after `k`
fetched pages, the last fetched page carries no truthy `next` token, every
earlier fetched prefix still carried one (so the playlist was not considered
final while a token remained), and the materialized playlist is built from
the entries of all `k` fetched pages concatenated in page order, filtered to
audio files. -/
theorem buildPlaylist_complete (pages : List Page) (k : Nat)
    (h : paginationFinalSize pages = some k) :
    lastHasNext (pages.take k) = false ∧
    (∀ j, 1 ≤ j → j < k → lastHasNext (pages.take j) = true) ∧
    buildPlaylist pages = some (playlistOf (((pages.take k).map pageValue).flatten)) := by
  obtain ⟨h1, _, h3⟩ := loadLoop_sound pages (pages.length + 1) 1 k h
  exact ⟨h1, fun j hj hjk => h3 j hj hjk, by simp [buildPlaylist, h]⟩

/-- Witness for claim C1: a three-page sequence where only the third page lacks a
`next` token materializes after all three pages, and the playlist contains
the audio entries of all three pages in page order — not just the first
page's. -/
theorem buildPlaylist_complete_witness :
    paginationFinalSize
        [⟨some [⟨"a.mp3", some ⟨"audio/mpeg"⟩⟩, ⟨"b.txt", some ⟨"text/plain"⟩⟩], some "t1"⟩,
         ⟨some [⟨"c.flac", some ⟨"audio/flac"⟩⟩], some "t2"⟩,
         ⟨some [⟨"d.wav", some ⟨"audio/wav"⟩⟩], none⟩] = some 3 ∧
    (lastHasNext
        (List.take 3
          [⟨some [⟨"a.mp3", some ⟨"audio/mpeg"⟩⟩, ⟨"b.txt", some ⟨"text/plain"⟩⟩], some "t1"⟩,
           ⟨some [⟨"c.flac", some ⟨"audio/flac"⟩⟩], some "t2"⟩,
           ⟨some [⟨"d.wav", some ⟨"audio/wav"⟩⟩], none⟩]) = false ∧
      (∀ j, 1 ≤ j → j < 3 → lastHasNext
        (List.take j
          [⟨some [⟨"a.mp3", some ⟨"audio/mpeg"⟩⟩, ⟨"b.txt", some ⟨"text/plain"⟩⟩], some "t1"⟩,
           ⟨some [⟨"c.flac", some ⟨"audio/flac"⟩⟩], some "t2"⟩,
           ⟨some [⟨"d.wav", some ⟨"audio/wav"⟩⟩], none⟩]) = true) ∧
      buildPlaylist
        [⟨some [⟨"a.mp3", some ⟨"audio/mpeg"⟩⟩, ⟨"b.txt", some ⟨"text/plain"⟩⟩], some "t1"⟩,
         ⟨some [⟨"c.flac", some ⟨"audio/flac"⟩⟩], some "t2"⟩,
         ⟨some [⟨"d.wav", some ⟨"audio/wav"⟩⟩], none⟩] =
        some (playlistOf
          ((List.map pageValue (List.take 3
            [⟨some [⟨"a.mp3", some ⟨"audio/mpeg"⟩⟩, ⟨"b.txt", some ⟨"text/plain"⟩⟩], some "t1"⟩,
             ⟨some [⟨"c.flac", some ⟨"audio/flac"⟩⟩], some "t2"⟩,
             ⟨some [⟨"d.wav", some ⟨"audio/wav"⟩⟩], none⟩])).flatten))) ∧
    buildPlaylist
        [⟨some [⟨"a.mp3", some ⟨"audio/mpeg"⟩⟩, ⟨"b.txt", some ⟨"text/plain"⟩⟩], some "t1"⟩,
         ⟨some [⟨"c.flac", some ⟨"audio/flac"⟩⟩], some "t2"⟩,
         ⟨some [⟨"d.wav", some ⟨"audio/wav"⟩⟩], none⟩] =
      some [⟨"a.mp3", ⟨"a.mp3", some ⟨"audio/mpeg"⟩⟩⟩,
            ⟨"c.flac", ⟨"c.flac", some ⟨"audio/flac"⟩⟩⟩,
            ⟨"d.wav", ⟨"d.wav", some ⟨"audio/wav"⟩⟩⟩] :=
  ⟨by decide, buildPlaylist_complete _ 3 (by decide), by decide⟩

/-- Claim C4: when the media element fires `ended` with the current track found at
index `i` of the playlist (matched by name), the handler selects the entry at
index `i + 1` and resets the state to `Loading` with the broken-thumbnail
flag cleared, provided such an entry exists; when `i` is the last index the
state becomes `Paused` and the current track is unchanged. -/
theorem onEnded_advance (playlist : List PlaylistItem) (s : PlayerModel) (i : Nat)
    (hfind : playlist.findIdx? (fun item => item.name == s.currentFile.name) = some i) :
    (i + 1 < playlist.length →
      onEnded playlist s =
        { currentFile := (playlist.getD (i + 1) default).file,
          playerStatus := PlayerState.Loading, brokenThumbnail := false }) ∧
    (i + 1 = playlist.length →
      onEnded playlist s = { s with playerStatus := PlayerState.Paused }) := by
  have hji : jsFindIndexByName playlist s.currentFile.name = (i : Int) := by
    simp [jsFindIndexByName, hfind]
  constructor
  · intro hlt
    have hcond : (i : Int) < (playlist.length : Int) - 1 := by omega
    have htn : ((i : Int) + 1).toNat = i + 1 := by omega
    simp only [onEnded, hji, hcond, if_true, htn, if_pos hcond]
    rfl
  · intro heq
    have hcond : ¬ ((i : Int) < (playlist.length : Int) - 1) := by omega
    simp only [onEnded, hji, if_neg hcond]

/-- Witness for claim C4: in a two-track playlist, `ended` on the first track advances
to the second and resets to `Loading` clearing the broken-thumbnail flag;
`ended` on the last track merely pauses. -/
theorem onEnded_advance_witness :
    ([(⟨"a", ⟨"a", none⟩⟩ : PlaylistItem), ⟨"b", ⟨"b", none⟩⟩].findIdx?
        (fun item => item.name == (PlayerModel.mk ⟨"a", none⟩ PlayerState.Playing true).currentFile.name) =
      some 0) ∧
    (0 + 1 < ([(⟨"a", ⟨"a", none⟩⟩ : PlaylistItem), ⟨"b", ⟨"b", none⟩⟩]).length →
      onEnded [⟨"a", ⟨"a", none⟩⟩, ⟨"b", ⟨"b", none⟩⟩]
          ⟨⟨"a", none⟩, PlayerState.Playing, true⟩ =
        { currentFile := (([(⟨"a", ⟨"a", none⟩⟩ : PlaylistItem), ⟨"b", ⟨"b", none⟩⟩]).getD (0 + 1) default).file,
          playerStatus := PlayerState.Loading, brokenThumbnail := false }) ∧
    onEnded [⟨"a", ⟨"a", none⟩⟩, ⟨"b", ⟨"b", none⟩⟩]
        ⟨⟨"b", none⟩, PlayerState.Playing, true⟩ =
      ⟨⟨"b", none⟩, PlayerState.Paused, true⟩ :=
  ⟨by decide,
   (onEnded_advance [⟨"a", ⟨"a", none⟩⟩, ⟨"b", ⟨"b", none⟩⟩]
      ⟨⟨"a", none⟩, PlayerState.Playing, true⟩ 0 (by decide)).1,
   by decide⟩

/-- Claim C10 (implicit): when `ended` fires while the current file's name does not
occur in a non-empty playlist, `findIndex` yields `-1`, the guard
`-1 < playlist.length - 1` holds, and the handler selects the entry at index
`(-1) + 1 = 0`. -/
theorem onEnded_nameMissing (playlist : List PlaylistItem) (s : PlayerModel)
    (hne : playlist ≠ [])
    (hfind : playlist.findIdx? (fun item => item.name == s.currentFile.name) = none) :
    onEnded playlist s =
      { currentFile := (playlist.getD 0 default).file,
        playerStatus := PlayerState.Loading, brokenThumbnail := false } := by
  have hji : jsFindIndexByName playlist s.currentFile.name = -1 := by
    simp [jsFindIndexByName, hfind]
  have hlen : 0 < playlist.length := List.length_pos.mpr hne
  have hcond : (-1 : Int) < (playlist.length : Int) - 1 := by omega
  have htn : ((-1 : Int) + 1).toNat = 0 := rfl
  simp only [onEnded, hji, if_pos hcond, htn]
  rfl

/-- Witness for claim C10: `ended` with a current file absent from a two-track playlist
selects the playlist's first entry. -/
theorem onEnded_nameMissing_witness :
    ([(⟨"a", ⟨"a", none⟩⟩ : PlaylistItem), ⟨"b", ⟨"b", none⟩⟩] ≠ []) ∧
    ([(⟨"a", ⟨"a", none⟩⟩ : PlaylistItem), ⟨"b", ⟨"b", none⟩⟩].findIdx?
        (fun item => item.name == (PlayerModel.mk ⟨"zz", none⟩ PlayerState.Playing true).currentFile.name) =
      none) ∧
    onEnded [⟨"a", ⟨"a", none⟩⟩, ⟨"b", ⟨"b", none⟩⟩]
        ⟨⟨"zz", none⟩, PlayerState.Playing, true⟩ =
      { currentFile := (([(⟨"a", ⟨"a", none⟩⟩ : PlaylistItem), ⟨"b", ⟨"b", none⟩⟩]).getD 0 default).file,
        playerStatus := PlayerState.Loading, brokenThumbnail := false } :=
  ⟨by decide, by decide,
   onEnded_nameMissing [⟨"a", ⟨"a", none⟩⟩, ⟨"b", ⟨"b", none⟩⟩]
     ⟨⟨"zz", none⟩, PlayerState.Playing, true⟩ (by decide) (by decide)⟩

/-! Lyric-sync driver lemmas. -/

theorem findLastGo_eq_enumFrom (p : LyricLine → Bool) (ls : List LyricLine) :
    ∀ (i : Nat) (acc : Int),
      findLastGo p ls i acc =
        match ((ls.enumFrom i).filter (fun q => p q.2)).getLast? with
        | some q => (q.1 : Int)
        | none => acc := by
  induction ls with
  | nil => intro i acc; rfl
  | cons l ls ih =>
    intro i acc
    rw [findLastGo, ih (i + 1)]
    simp only [List.enumFrom_cons, List.filter_cons]
    by_cases hp : p l
    · simp only [hp, if_true]
      cases hF : (ls.enumFrom (i + 1)).filter (fun q => p q.2) with
      | nil => rfl
      | cons f fs =>
        cases hq : (f :: fs).getLast? with
        | none => simp [List.getLast?_eq_none_iff] at hq
        | some q => rw [List.getLast?_cons_cons, hq]
    · simp only [hp, Bool.false_eq_true, if_false]

theorem findLastGo_all_false (p : LyricLine → Bool) (ls : List LyricLine)
    (h : ∀ x ∈ ls, p x = false) :
    ∀ (i : Nat) (acc : Int), findLastGo p ls i acc = acc := by
  induction ls with
  | nil => intro i acc; rfl
  | cons l ls ih =>
    intro i acc
    rw [findLastGo, h l (List.mem_cons_self l ls)]
    exact ih (fun x hx => h x (List.mem_cons_of_mem l hx)) (i + 1) acc

theorem scanGo_eq_findLastGo (t : ℚ) :
    ∀ (ls : List LyricLine), ls.Pairwise (fun a b => a.time ≤ b.time) →
      ∀ (i : Nat) (acc : Int),
        scanGo t ls i acc = findLastGo (fun l => decide (l.time ≤ t)) ls i acc := by
  intro ls
  induction ls with
  | nil => intro _ i acc; rfl
  | cons l ls ih =>
    intro h i acc
    rw [List.pairwise_cons] at h
    obtain ⟨hl, hls⟩ := h
    by_cases hp : l.time ≤ t
    · rw [scanGo, findLastGo, if_pos hp]
      simp only [decide_eq_true hp, if_true]
      exact ih hls (i + 1) (i : Int)
    · rw [scanGo, findLastGo, if_neg hp]
      simp only [decide_eq_false hp, Bool.false_eq_true, if_false]
      symm
      refine findLastGo_all_false _ ls (fun x hx => ?_) (i + 1) acc
      exact decide_eq_false (fun hc => hp (le_trans (hl x hx) hc))

/-- Claim C5: on a lyric sequence sorted ascending by time, the early-break linear
scan of the first `updateLyric` variant and the `findLastIndex` expression of
the second variant compute the same active index, and that index is the one
the spec describes: the index of the last line whose time is at most the
playback position, or `-1` if none. -/
theorem updateLyric_refinement (t : ℚ) (lyrics : List LyricLine)
    (h : lyrics.Pairwise (fun a b => a.time ≤ b.time)) :
    updateLyricScan t lyrics = updateLyricFindLast t lyrics ∧
    updateLyricFindLast t lyrics = specActiveIndex t lyrics := by
  constructor
  · exact scanGo_eq_findLastGo t lyrics h 0 (-1)
  · rw [updateLyricFindLast, findLastGo_eq_enumFrom, specActiveIndex,
      List.enum_eq_enumFrom]

/-- Witness for claim C5: both variants and the spec agree on a concrete sorted
three-line sequence at playback position 7, where the active line is the
second (index 1). -/
theorem updateLyric_refinement_witness :
    ([(⟨5, "A"⟩ : LyricLine), ⟨6, "B"⟩, ⟨10, "C"⟩].Pairwise
        (fun a b => a.time ≤ b.time)) ∧
    (updateLyricScan 7 [⟨5, "A"⟩, ⟨6, "B"⟩, ⟨10, "C"⟩] =
        updateLyricFindLast 7 [⟨5, "A"⟩, ⟨6, "B"⟩, ⟨10, "C"⟩] ∧
      updateLyricFindLast 7 [⟨5, "A"⟩, ⟨6, "B"⟩, ⟨10, "C"⟩] =
        specActiveIndex 7 [⟨5, "A"⟩, ⟨6, "B"⟩, ⟨10, "C"⟩]) ∧
    updateLyricScan 7 [⟨5, "A"⟩, ⟨6, "B"⟩, ⟨10, "C"⟩] = 1 :=
  ⟨by with_unfolding_all decide,
   updateLyric_refinement 7 [⟨5, "A"⟩, ⟨6, "B"⟩, ⟨10, "C"⟩]
     (by with_unfolding_all decide),
   by with_unfolding_all decide⟩

/-! Color-extractor lemmas. -/

theorem foldSums_replicate (p : Nat) (px : RGBA) :
    ∀ acc : Nat × Nat × Nat,
      (List.replicate p px).foldl
        (fun (acc : Nat × Nat × Nat) px => (acc.1 + px.r, acc.2.1 + px.g, acc.2.2 + px.b)) acc =
      (acc.1 + p * px.r, acc.2.1 + p * px.g, acc.2.2 + p * px.b) := by
  induction p with
  | zero => intro acc; simp
  | succ n ih =>
    intro acc
    rw [List.replicate_succ, List.foldl_cons, ih]
    simp only [Prod.mk.injEq]
    refine ⟨by ring, by ring, by ring⟩

/-- Claim C6: for every `N×N` uniformly red `(255,0,0)` image whose sampled
centered sub-region is non-empty, `extractColorFromImage` returns exactly
`"rgb(255, 0, 0)"` — the integer-truncated per-channel average of a constant
buffer is that constant — and when no drawing context is obtainable it
returns the fixed fallback color. -/
theorem extractColor_uniformRed (n : Nat) (h : 0 < sampledPixelCount n) :
    extractColorFromImage (some (uniformRedSample n)) = "rgb(255, 0, 0)" ∧
    extractColorFromImage none = "rgb(239, 68, 68)" := by
  refine ⟨?_, rfl⟩
  have h255 : sampledPixelCount n * 255 / sampledPixelCount n = 255 :=
    Nat.mul_div_cancel_left 255 h
  have h0 : sampledPixelCount n * 0 / sampledPixelCount n = 0 := by simp
  simp only [extractColorFromImage, uniformRedSample, foldSums_replicate,
    List.length_replicate, Nat.zero_add, h255, h0]
  rfl

/-- Witness for claim C6: a 4×4 uniformly red image has a non-empty 2×2 sampled region
and extracts to exactly `rgb(255, 0, 0)`; without a drawing context the fixed
fallback color is returned. -/
theorem extractColor_uniformRed_witness :
    0 < sampledPixelCount 4 ∧
    (extractColorFromImage (some (uniformRedSample 4)) = "rgb(255, 0, 0)" ∧
      extractColorFromImage none = "rgb(239, 68, 68)") :=
  ⟨by decide, extractColor_uniformRed 4 (by decide)⟩

/-- Claim C7: the playlist filter keeps exactly the entries that are files with a
MIME type beginning `audio/`, in listing order: the playlist's underlying
entries are the filtered entry list (hence a sublist of the input, preserving
order), membership is characterized by the audio predicate, and the concrete
example `[a.mp3 audio/mpeg, b.txt text/plain, c.flac audio/flac]` yields
`[a.mp3, c.flac]` in that order. -/
theorem playlistOf_filtersAudio :
    playlistOf
        [⟨"a.mp3", some ⟨"audio/mpeg"⟩⟩, ⟨"b.txt", some ⟨"text/plain"⟩⟩,
         ⟨"c.flac", some ⟨"audio/flac"⟩⟩] =
      [⟨"a.mp3", ⟨"a.mp3", some ⟨"audio/mpeg"⟩⟩⟩,
       ⟨"c.flac", ⟨"c.flac", some ⟨"audio/flac"⟩⟩⟩] ∧
    ∀ es : List DirEntry,
      (playlistOf es).map PlaylistItem.file = es.filter audioFilePred ∧
      ((playlistOf es).map PlaylistItem.file).Sublist es ∧
      (∀ f : DirEntry, (∃ it ∈ playlistOf es, it.file = f) ↔
        f ∈ es ∧ audioFilePred f = true) := by
  refine ⟨by decide, fun es => ?_⟩
  have hmap : (playlistOf es).map PlaylistItem.file = es.filter audioFilePred := by
    simp [playlistOf, List.map_map, Function.comp_def]
  refine ⟨hmap, ?_, fun f => ?_⟩
  · rw [hmap]; exact List.filter_sublist es
  · constructor
    · rintro ⟨it, hit, rfl⟩
      have hmem : it.file ∈ (playlistOf es).map PlaylistItem.file :=
        List.mem_map_of_mem PlaylistItem.file hit
      rw [hmap] at hmem
      exact List.mem_filter.mp hmem
    · rintro ⟨hf, hpred⟩
      have hmem : f ∈ (playlistOf es).map PlaylistItem.file := by
        rw [hmap]; exact List.mem_filter.mpr ⟨hf, hpred⟩
      obtain ⟨it, hit, heq⟩ := List.mem_map.mp hmem
      exact ⟨it, hit, heq⟩

/-- Claim C9 evaluation: the source's lyric-fetch completion handler commits its
result with no identity check against the currently selected track.  On the
trace "a fetch for `A.mp3` is in flight; the user selects `B.mp3` (which
clears the lyric state); `A.mp3`'s fetch then resolves", the final state
displays `A.mp3`'s lyrics while `B.mp3` is the current track — the stale
result is applied, contradicting the claimed guard. -/
theorem lyricFetch_staleResultApplied :
    List.foldl lyricStep ⟨"A.mp3", [], none, none⟩
        [LyricEvent.selectTrack "B.mp3",
         LyricEvent.fetchResolves "A.mp3" [⟨0, "stale"⟩]] =
      ⟨"B.mp3", [⟨0, "stale"⟩], some "A.mp3", some true⟩ ∧
    ("A.mp3" : String) ≠ "B.mp3" := by
  exact ⟨by with_unfolding_all decide, by decide⟩

end AudioPreview
